import Mathlib

/-!
Formal model of `nlogo_graphs.py`, the graph-generation and graph-metric
module of the cog-cascades media-ecosystem repository.

Graphs are modelled exactly as networkx builds them: a `Graph` (and a
`DiGraph`) is an insertion-ordered list of nodes plus an insertion-ordered
list of edges.  `add_node` is idempotent; `Graph.add_edge` stores an
undirected edge once (either orientation counts as present) and first
inserts both endpoints; `DiGraph.add_edge` stores an ordered pair once.
networkx enumerates the edges of an undirected graph with the
earlier-inserted endpoint first (`edgesView` below).

Random draws (`random()` from Python's global generator) are modelled by an
explicit function giving the value consumed at loop position `(i, j)`; the
probability matrices produced by the external collaborators `mag.attr_mag`
and `kronecker.kronecker_pow`, and the external distance function
`dist_to_agent_brain(·, message)`, are parameters, so every theorem
quantifies over all of their possible outputs.  Real-valued quantities are
modelled by `ℚ`.
-/

/-- Node/edge record as built by networkx `Graph`/`DiGraph`: insertion-ordered
node list, insertion-ordered edge list. -/
structure NXGraph where
  nodes : List ℕ
  edges : List (ℕ × ℕ)
deriving DecidableEq, Repr

def NXGraph.empty : NXGraph := ⟨[], []⟩

/-- networkx `add_node`: appends the node unless already present. -/
def addNode (G : NXGraph) (u : ℕ) : NXGraph :=
  if u ∈ G.nodes then G else ⟨G.nodes ++ [u], G.edges⟩

/-- networkx `Graph.add_edge`: inserts both endpoints, then stores the
undirected edge once (presence in either orientation counts; `add_node`
never changes the edge list, so the presence test reads `G.edges`). -/
def addEdgeU (G : NXGraph) (u v : ℕ) : NXGraph :=
  if (u, v) ∈ G.edges ∨ (v, u) ∈ G.edges then addNode (addNode G u) v
  else ⟨(addNode (addNode G u) v).nodes, G.edges ++ [(u, v)]⟩

/-- networkx `DiGraph.add_edge`: inserts both endpoints, then stores the
ordered pair once. -/
def addEdgeD (G : NXGraph) (u v : ℕ) : NXGraph :=
  if (u, v) ∈ G.edges then addNode (addNode G u) v
  else ⟨(addNode (addNode G u) v).nodes, G.edges ++ [(u, v)]⟩

/-- Orientation used by networkx when enumerating the edges of an
undirected graph: the endpoint that was inserted earlier comes first. -/
def enumOrient (nodes : List ℕ) (u v : ℕ) : ℕ × ℕ :=
  if nodes.indexOf u ≤ nodes.indexOf v then (u, v) else (v, u)

/-- The edge list of an undirected graph as networkx's `G.edges` reports it:
each stored undirected edge once, earlier-inserted endpoint first. -/
def edgesView (G : NXGraph) : List (ℕ × ℕ) :=
  G.edges.map (fun e => enumOrient G.nodes e.1 e.2)

/-- The plain record `{ 'nodes': ..., 'edges': ... }` handed to NetLogo. -/
structure NlogoGraph where
  nodes : List ℕ
  edges : List (ℕ × ℕ)
deriving DecidableEq, Repr

/-- `nlogo_safe_nodes_edges` applied to an undirected graph:
`{ 'nodes': list(G.nodes), 'edges': [[e[0], e[1]] for e in G.edges] }`. -/
def nlogo_safe_nodes_edges (G : NXGraph) : NlogoGraph :=
  ⟨G.nodes, edgesView G⟩

/-- `nlogo_safe_nodes_edges` applied to a directed graph (the edges of a
`DiGraph` are enumerated as stored). -/
def nlogo_safe_nodes_edgesD (G : NXGraph) : NlogoGraph :=
  ⟨G.nodes, G.edges⟩

/-- `bidirected_graph`: for each enumerated undirected edge, add both
ordered pairs to a fresh `DiGraph`. -/
def bidirected_graph (G : NXGraph) : NXGraph :=
  (edgesView G).foldl (fun D e => addEdgeD (addEdgeD D e.1 e.2) e.2 e.1) NXGraph.empty

/-- Row-major list of all ordered pairs `(i, j)` with `i, j < n`: the order
the nested `for i ... for j ...` loops visit pairs. -/
def pairsSquare (n : ℕ) : List (ℕ × ℕ) :=
  (List.range n).flatMap (fun i => (List.range n).map (fun j => (i, j)))

/-- The sampling loop shared by `MAG_graph` and `MAG_graph_bidirected`:
for every ordered pair `(i, j)` (the diagonal included) draw `rand i j` and
add the undirected edge iff `rand i j ≤ p_edge i j`.  Nodes `0..n-1` are
present from `add_nodes_from(range(0, len(p_edge[0])))`. -/
def MAG_sample (p_edge rand : ℕ → ℕ → ℚ) (n : ℕ) : NXGraph :=
  (pairsSquare n).foldl
    (fun G ij => if rand ij.1 ij.2 ≤ p_edge ij.1 ij.2 then addEdgeU G ij.1 ij.2 else G)
    ⟨List.range n, []⟩

/-- `MAG_graph` (the attached attribute table `L` is passed through
untouched and does not affect nodes or edges, so it is omitted here). -/
def MAG_graph (p_edge rand : ℕ → ℕ → ℚ) (n : ℕ) : NlogoGraph :=
  nlogo_safe_nodes_edges (MAG_sample p_edge rand n)

/-- `MAG_graph_bidirected`. -/
def MAG_graph_bidirected (p_edge rand : ℕ → ℕ → ℚ) (n : ℕ) : NlogoGraph :=
  nlogo_safe_nodes_edgesD (bidirected_graph (MAG_sample p_edge rand n))

/-- The sampling loop of the kronecker generators: identity pairs are
skipped (`if i == j: continue`) before any draw; otherwise the undirected
edge is added iff `rand i j < p i j`. -/
def kronecker_sample (p rand : ℕ → ℕ → ℚ) (n : ℕ) : NXGraph :=
  (pairsSquare n).foldl
    (fun G ij =>
      if ij.1 = ij.2 then G
      else if rand ij.1 ij.2 < p ij.1 ij.2 then addEdgeU G ij.1 ij.2 else G)
    ⟨List.range n, []⟩

/-- All endpoints occurring in an edge list. -/
def allEndpoints (E : List (ℕ × ℕ)) : Finset ℕ :=
  (E.map Prod.fst).toFinset ∪ (E.map Prod.snd).toFinset

/-- One expansion step of undirected reachability: a set together with all
neighbours of its members. -/
def stepNbrs (E : List (ℕ × ℕ)) (s : Finset ℕ) : Finset ℕ :=
  s ∪ ((E.filter (fun e => decide (e.1 ∈ s))).map Prod.snd).toFinset
    ∪ ((E.filter (fun e => decide (e.2 ∈ s))).map Prod.fst).toFinset

/-- Fuelled saturation of `stepNbrs`. -/
def closureN (E : List (ℕ × ℕ)) : ℕ → Finset ℕ → Finset ℕ
  | 0, s => s
  | k + 1, s => if stepNbrs E s = s then s else closureN E k (stepNbrs E s)

/-- The connected component of `r` (as `nx.connected_components` computes
components: everything reachable from `r` through the undirected edges). -/
def compOf (E : List (ℕ × ℕ)) (r : ℕ) : Finset ℕ :=
  closureN E (insert r (allEndpoints E)).card {r}

/-- `max(nx.connected_components(G), key=len)`: the first component (in
node-scan order) of maximal size; `∅` on an empty node list (where the
Python `max` raises instead). -/
def largestComponent (nodes : List ℕ) (E : List (ℕ × ℕ)) : Finset ℕ :=
  nodes.foldl (fun best v => if best.card < (compOf E v).card then compOf E v else best) ∅

/-- `G.remove_nodes_from(G.nodes - keep)`: keep exactly the nodes of `keep`
and the edges with both endpoints kept. -/
def restrictGraph (G : NXGraph) (keep : Finset ℕ) : NXGraph :=
  ⟨G.nodes.filter (fun v => decide (v ∈ keep)),
   G.edges.filter (fun e => decide (e.1 ∈ keep) && decide (e.2 ∈ keep))⟩

/-- `kronecker_graph`: sample, restrict to the largest connected component,
convert.  On an empty node set (a 0×0 expanded matrix) the Python
`max(..., key=len)` raises `ValueError`, modelled by `none`. -/
def kronecker_graph (p rand : ℕ → ℕ → ℚ) (n : ℕ) : Option NlogoGraph :=
  let G := kronecker_sample p rand n
  if G.nodes = [] then none
  else some (nlogo_safe_nodes_edges (restrictGraph G (largestComponent G.nodes G.edges)))

/-- `kronecker_graph_bidirected`. -/
def kronecker_graph_bidirected (p rand : ℕ → ℕ → ℚ) (n : ℕ) : Option NlogoGraph :=
  let G := kronecker_sample p rand n
  if G.nodes = [] then none
  else some (nlogo_safe_nodes_edgesD
    (bidirected_graph (restrictGraph G (largestComponent G.nodes G.edges))))

/-- Undirected adjacency on a stored edge list. -/
def adjE (E : List (ℕ × ℕ)) (u v : ℕ) : Prop := (u, v) ∈ E ∨ (v, u) ∈ E

/-- `u` and `v` are joined by a path of edges of `E`. -/
def ReachesL (E : List (ℕ × ℕ)) (u v : ℕ) : Prop :=
  Relation.ReflTransGen (adjE E) u v

/-- `nlogo_graph_to_nx` after the textual parsing: every citizen id is
added as a node (attribute assignment touches only node data), then every
friend link becomes an undirected edge. -/
def nlogo_graph_to_nx (citizens : List ℕ) (friend_links : List (ℕ × ℕ)) : NXGraph :=
  friend_links.foldl (fun G l => addEdgeU G l.1 l.2)
    (citizens.foldl (fun G c => addNode G c) NXGraph.empty)

/-- The weight-assignment loop of `influencer_paths_within_distance`:
`for e in G.edges: G[e[0]][e[1]]['weight'] = dist_to_agent_brain(G.nodes[e[0]], message)`.
`distOf v` stands for `dist_to_agent_brain(G.nodes[v], message)`. -/
def assignWeights (G : NXGraph) (distOf : ℕ → ℚ) : List ((ℕ × ℕ) × ℚ) :=
  (edgesView G).map (fun e => (e, distOf e.1))

/-- Reading `G[u][v]['weight']` on an undirected graph: the one weight
stored for the undirected edge `{u, v}` (either orientation). -/
def weightLookup (W : List ((ℕ × ℕ) × ℚ)) (u v : ℕ) : ℚ :=
  match W.find? (fun x => x.1 == (u, v) || x.1 == (v, u)) with
  | some x => x.2
  | none => 0

/-- Neighbours of `u` together with the weight of the connecting edge. -/
def nbrWeights (G : NXGraph) (w : ℕ → ℕ → ℚ) (u : ℕ) : List (ℕ × ℚ) :=
  (G.edges.filterMap (fun e =>
    if e.1 = u then some e.2 else if e.2 = u then some e.1 else none)).map
    (fun v => (v, w u v))

/-- Least-cost entry of a Dijkstra frontier (first wins ties). -/
def pickMin (l : List (ℕ × ℚ × List ℕ)) : Option (ℕ × ℚ × List ℕ) :=
  l.foldl (fun acc x =>
    match acc with
    | none => some x
    | some y => if x.2.1 < y.2.1 then some x else some y) none

/-- Fuelled Dijkstra main loop.  A frontier entry is
(node, tentative cost, reversed path to it). -/
def dijkstraLoop (G : NXGraph) (w : ℕ → ℕ → ℚ) (t : ℕ) :
    ℕ → List (ℕ × ℚ × List ℕ) → List ℕ → Option (List ℕ)
  | 0, _, _ => none
  | fuel + 1, frontier, visited =>
    match pickMin (frontier.filter (fun x => decide (x.1 ∉ visited))) with
    | none => none
    | some u =>
      if u.1 = t then some u.2.2.reverse
      else dijkstraLoop G w t fuel
        (frontier ++ (nbrWeights G w u.1).map (fun vw => (vw.1, u.2.1 + vw.2, vw.1 :: u.2.2)))
        (u.1 :: visited)

/-- `nx.dijkstra_path(G, s, t)`: a least-weight path from `s` to `t`, or
`none` when no path exists (networkx raises `NetworkXNoPath`). -/
def dijkstra_path (G : NXGraph) (w : ℕ → ℕ → ℚ) (s t : ℕ) : Option (List ℕ) :=
  dijkstraLoop G w t (G.nodes.length + 1) [(s, 0, [s])] []

/-- A Python comprehension that may raise: evaluate `f` left to right, the
first exception (`none`) aborting the whole computation. -/
def traverseOption : List α → (α → Option β) → Option (List β)
  | [], _ => some []
  | a :: l, f =>
    match f a with
    | none => none
    | some b => (traverseOption l f).map (fun r => b :: r)

/-- `dist_path` of a path: the node distances with the last one dropped. -/
def distSeq (distOf : ℕ → ℚ) (path : List ℕ) : List ℚ :=
  (path.map distOf).dropLast

/-- The retention test `sum((np.array(dist_path) - threshold) > 0) == 0`. -/
def passesThreshold (threshold : ℚ) (dp : List ℚ) : Bool :=
  ((dp.map (fun d => d - threshold)).countP (fun x => decide (0 < x))) == 0

/-- `influencer_paths_within_distance` after the textual parsing: build the
weighted graph, Dijkstra from each subscriber to the target (any failure
aborting the comprehension), then keep each subscriber's distance sequence
iff no value exceeds the threshold. -/
def influencer_paths_within_distance (citizens : List ℕ)
    (friend_links : List (ℕ × ℕ)) (subscribers : List ℕ) (target : ℕ)
    (distOf : ℕ → ℚ) (threshold : ℚ) : Option (List (ℕ × List ℚ)) :=
  let G := nlogo_graph_to_nx citizens friend_links
  let w := weightLookup (assignWeights G distOf)
  match traverseOption subscribers
      (fun s => (dijkstra_path G w s target).map (fun p => (s, p))) with
  | none => none
  | some paths =>
    some ((paths.map (fun sp => (sp.1, distSeq distOf sp.2))).filter
      (fun sdp => passesThreshold threshold sdp.2))

/-- Entry `(u, v)` of `nx.adj_matrix(G)` (our graphs have node ids equal to
their positions, as in every use in the source). -/
def adjVal (G : NXGraph) (u v : ℕ) : ℚ :=
  if (u, v) ∈ G.edges ∨ (v, u) ∈ G.edges then 1 else 0

/-- `graph_homophily`: per-node degree-normalised mean absolute attribute
difference to neighbours, averaged over the nodes. -/
def graph_homophily (G : NXGraph) (attrs : ℕ → ℚ) : ℚ :=
  ((G.nodes.map (fun u =>
      (G.nodes.map (fun j => adjVal G u j * |attrs j - attrs u|)).sum
        / (G.nodes.map (fun j => adjVal G u j)).sum)).sum)
    / (G.nodes.length : ℚ)

/-- `graph_polarization`: rescale attributes by `max_attr_value`,
mean-centre, return the dot product of the centred vector with itself. -/
def graph_polarization (G : NXGraph) (attrs : ℕ → ℚ) (maxAttrValue : ℚ) : ℚ :=
  let a := G.nodes.map (fun v => attrs v / maxAttrValue)
  let mc := a.map (fun x => x - a.sum / (a.length : ℚ))
  (mc.map (fun x => x * x)).sum

/-- `graph_disagreement`: rescale attributes by `max_attr_value`; sum the
adjacency-weighted squared differences and halve. -/
def graph_disagreement (G : NXGraph) (attrs : ℕ → ℚ) (maxAttrValue : ℚ) : ℚ :=
  ((G.nodes.map (fun u =>
      (G.nodes.map (fun j =>
        adjVal G u j * (attrs j / maxAttrValue - attrs u / maxAttrValue) ^ 2)).sum)).sum)
    / 2

/-! ### Basic lemmas about the graph builders -/

theorem addNode_edges (G : NXGraph) (a : ℕ) : (addNode G a).edges = G.edges := by
  unfold addNode; split <;> rfl

theorem mem_addNode_nodes (G : NXGraph) (a u : ℕ) :
    u ∈ (addNode G a).nodes ↔ u ∈ G.nodes ∨ u = a := by
  unfold addNode
  split
  next h => exact ⟨Or.inl, fun hu => hu.elim id (fun e => e ▸ h)⟩
  next h => simp [List.mem_append]

theorem addEdgeU_nodes (G : NXGraph) (a b : ℕ) :
    (addEdgeU G a b).nodes = (addNode (addNode G a) b).nodes := by
  unfold addEdgeU; split <;> rfl

theorem addEdgeD_nodes (G : NXGraph) (a b : ℕ) :
    (addEdgeD G a b).nodes = (addNode (addNode G a) b).nodes := by
  unfold addEdgeD; split <;> rfl

theorem adjE_addEdgeU (G : NXGraph) (a b u v : ℕ) :
    adjE (addEdgeU G a b).edges u v ↔
      adjE G.edges u v ∨ (u = a ∧ v = b) ∨ (u = b ∧ v = a) := by
  unfold addEdgeU adjE
  split
  next h =>
    rw [addNode_edges, addNode_edges]
    refine ⟨Or.inl, fun hu => ?_⟩
    rcases hu with hh | ⟨rfl, rfl⟩ | ⟨rfl, rfl⟩
    · exact hh
    · exact h
    · exact h.symm
  next h =>
    simp only [List.mem_append, List.mem_singleton, Prod.mk.injEq]
    tauto

theorem mem_addEdgeD_edges (G : NXGraph) (a b : ℕ) (e : ℕ × ℕ) :
    e ∈ (addEdgeD G a b).edges ↔ e ∈ G.edges ∨ e = (a, b) := by
  unfold addEdgeD
  split
  next h =>
    rw [addNode_edges, addNode_edges]
    exact ⟨Or.inl, fun hu => hu.elim id (fun hh => hh ▸ h)⟩
  next h => simp [List.mem_append]

theorem mem_addEdgeD_nodes (G : NXGraph) (a b u : ℕ) :
    u ∈ (addEdgeD G a b).nodes ↔ u ∈ G.nodes ∨ u = a ∨ u = b := by
  rw [addEdgeD_nodes, mem_addNode_nodes, mem_addNode_nodes]
  tauto

theorem addEdgeU_edges_forall (G : NXGraph) (a b : ℕ) (P : ℕ × ℕ → Prop)
    (hG : ∀ e ∈ G.edges, P e) (hab : P (a, b)) :
    ∀ e ∈ (addEdgeU G a b).edges, P e := by
  unfold addEdgeU
  split
  next h => rw [addNode_edges, addNode_edges]; exact hG
  next h =>
    intro e he
    rcases List.mem_append.mp he with he | he
    · exact hG e he
    · rcases List.mem_singleton.mp he with rfl; exact hab

/-- `enumOrient` only reorients: it returns one of the two orderings. -/
theorem enumOrient_cases (nodes : List ℕ) (u v : ℕ) :
    enumOrient nodes u v = (u, v) ∨ enumOrient nodes u v = (v, u) := by
  unfold enumOrient; split
  · exact Or.inl rfl
  · exact Or.inr rfl

/-! ### Reachability and connected components -/

theorem mem_stepNbrs (E : List (ℕ × ℕ)) (s : Finset ℕ) (v : ℕ) :
    v ∈ stepNbrs E s ↔ v ∈ s ∨ ∃ u, u ∈ s ∧ adjE E u v := by
  unfold stepNbrs adjE
  simp only [Finset.mem_union, List.mem_toFinset, List.mem_map, List.mem_filter,
    decide_eq_true_eq]
  constructor
  · rintro ((hv | ⟨e, ⟨he, h1⟩, rfl⟩) | ⟨e, ⟨he, h2⟩, rfl⟩)
    · exact Or.inl hv
    · exact Or.inr ⟨e.1, h1, Or.inl (by rwa [Prod.mk.eta])⟩
    · exact Or.inr ⟨e.2, h2, Or.inr (by rwa [Prod.mk.eta])⟩
  · rintro (hv | ⟨u, hu, h | h⟩)
    · exact Or.inl (Or.inl hv)
    · exact Or.inl (Or.inr ⟨(u, v), ⟨h, hu⟩, rfl⟩)
    · exact Or.inr ⟨(v, u), ⟨h, hu⟩, rfl⟩

theorem subset_stepNbrs (E : List (ℕ × ℕ)) (s : Finset ℕ) : s ⊆ stepNbrs E s :=
  fun v hv => (mem_stepNbrs E s v).mpr (Or.inl hv)

theorem stepNbrs_subset (E : List (ℕ × ℕ)) (s : Finset ℕ) :
    stepNbrs E s ⊆ s ∪ allEndpoints E := by
  intro v hv
  rcases (mem_stepNbrs E s v).mp hv with hv | ⟨u, _, h | h⟩
  · exact Finset.mem_union_left _ hv
  · refine Finset.mem_union_right _ ?_
    unfold allEndpoints
    exact Finset.mem_union_right _
      (List.mem_toFinset.mpr (List.mem_map.mpr ⟨(u, v), h, rfl⟩))
  · refine Finset.mem_union_right _ ?_
    unfold allEndpoints
    exact Finset.mem_union_left _
      (List.mem_toFinset.mpr (List.mem_map.mpr ⟨(v, u), h, rfl⟩))

theorem subset_closureN (E : List (ℕ × ℕ)) (k : ℕ) (s : Finset ℕ) :
    s ⊆ closureN E k s := by
  induction k generalizing s with
  | zero => exact le_refl s
  | succ k ih =>
    unfold closureN
    split
    · exact le_refl s
    · exact (subset_stepNbrs E s).trans (ih (stepNbrs E s))

theorem closureN_sound (E : List (ℕ × ℕ)) (k : ℕ) (s : Finset ℕ) (v : ℕ)
    (hv : v ∈ closureN E k s) : ∃ u, u ∈ s ∧ ReachesL E u v := by
  induction k generalizing s with
  | zero => exact ⟨v, hv, Relation.ReflTransGen.refl⟩
  | succ k ih =>
    unfold closureN at hv
    split at hv
    · exact ⟨v, hv, Relation.ReflTransGen.refl⟩
    · obtain ⟨u, hu, hr⟩ := ih (stepNbrs E s) hv
      rcases (mem_stepNbrs E s u).mp hu with hu | ⟨w, hw, hadj⟩
      · exact ⟨u, hu, hr⟩
      · exact ⟨w, hw, Relation.ReflTransGen.head hadj hr⟩

theorem closureN_fixpoint (E : List (ℕ × ℕ)) (k : ℕ) (s : Finset ℕ)
    (hk : (s ∪ allEndpoints E).card ≤ k + s.card) :
    stepNbrs E (closureN E k s) = closureN E k s := by
  induction k generalizing s with
  | zero =>
    have hsub : s ⊆ s ∪ allEndpoints E := Finset.subset_union_left
    have heq : s = s ∪ allEndpoints E :=
      Finset.eq_of_subset_of_card_le hsub (by simpa using hk)
    refine Finset.Subset.antisymm ?_ (subset_stepNbrs E _)
    calc stepNbrs E (closureN E 0 s) ⊆ s ∪ allEndpoints E := stepNbrs_subset E s
      _ = s := heq.symm
  | succ k ih =>
    unfold closureN
    split
    next h => exact h
    next h =>
      have hunion : stepNbrs E s ∪ allEndpoints E = s ∪ allEndpoints E := by
        refine Finset.Subset.antisymm ?_ ?_
        · exact Finset.union_subset (stepNbrs_subset E s) Finset.subset_union_right
        · exact Finset.union_subset
            ((subset_stepNbrs E s).trans Finset.subset_union_left)
            Finset.subset_union_right
      have hlt : s.card < (stepNbrs E s).card :=
        Finset.card_lt_card (Finset.ssubset_iff_subset_ne.mpr
          ⟨subset_stepNbrs E s, fun he => h he.symm⟩)
      exact ih (stepNbrs E s) (by rw [hunion]; omega)

theorem stepNbrs_compOf (E : List (ℕ × ℕ)) (r : ℕ) :
    stepNbrs E (compOf E r) = compOf E r := by
  unfold compOf
  refine closureN_fixpoint E _ {r} ?_
  rw [← Finset.insert_eq, Finset.card_singleton]
  omega

theorem mem_compOf (E : List (ℕ × ℕ)) (r v : ℕ) :
    v ∈ compOf E r ↔ ReachesL E r v := by
  constructor
  · intro hv
    obtain ⟨u, hu, hr⟩ := closureN_sound E _ {r} v hv
    rcases Finset.mem_singleton.mp hu with rfl
    exact hr
  · intro h
    induction h with
    | refl => exact subset_closureN E _ {r} (Finset.mem_singleton_self r)
    | tail _ hadj ih =>
      rename_i b c _
      have : c ∈ stepNbrs E (compOf E r) := (mem_stepNbrs E _ c).mpr (Or.inr ⟨b, ih, hadj⟩)
      rwa [stepNbrs_compOf] at this

theorem ReachesL_symm (E : List (ℕ × ℕ)) (u v : ℕ) (h : ReachesL E u v) :
    ReachesL E v u := by
  induction h with
  | refl => exact Relation.ReflTransGen.refl
  | tail _ hadj ih => exact Relation.ReflTransGen.head (Or.symm hadj) ih

theorem largestComponent_spec (E : List (ℕ × ℕ)) (nodes : List ℕ) :
    largestComponent nodes E = ∅ ∨ ∃ r, largestComponent nodes E = compOf E r := by
  unfold largestComponent
  suffices hgen : ∀ (init : Finset ℕ), (init = ∅ ∨ ∃ r, init = compOf E r) →
      (nodes.foldl (fun best v =>
        if best.card < (compOf E v).card then compOf E v else best) init = ∅ ∨
       ∃ r, nodes.foldl (fun best v =>
        if best.card < (compOf E v).card then compOf E v else best) init = compOf E r) by
    exact hgen ∅ (Or.inl rfl)
  induction nodes with
  | nil => intro init h; exact h
  | cons a l ih =>
    intro init h
    simp only [List.foldl_cons]
    split
    · exact ih (compOf E a) (Or.inr ⟨a, rfl⟩)
    · exact ih init h

theorem reaches_filter (E : List (ℕ × ℕ)) (C : Finset ℕ) (u v : ℕ)
    (hclosed : ∀ a b, a ∈ C → adjE E a b → b ∈ C)
    (hu : u ∈ C) (h : ReachesL E u v) :
    ReachesL (E.filter (fun e => decide (e.1 ∈ C) && decide (e.2 ∈ C))) u v ∧ v ∈ C := by
  induction h with
  | refl => exact ⟨Relation.ReflTransGen.refl, hu⟩
  | tail _ hadj ih =>
    rename_i b c _
    obtain ⟨ihr, hb⟩ := ih
    have hc : c ∈ C := hclosed b c hb hadj
    have hadjf : adjE (E.filter (fun e => decide (e.1 ∈ C) && decide (e.2 ∈ C))) b c := by
      rcases hadj with h1 | h1
      · exact Or.inl (List.mem_filter.mpr ⟨h1, by simp [hb, hc]⟩)
      · exact Or.inr (List.mem_filter.mpr ⟨h1, by simp [hb, hc]⟩)
    exact ⟨Relation.ReflTransGen.tail ihr hadjf, hc⟩

theorem adjE_edgesView (H : NXGraph) (a b : ℕ) :
    adjE (edgesView H) a b ↔ adjE H.edges a b := by
  have key : ∀ c d : ℕ, (c, d) ∈ edgesView H → (c, d) ∈ H.edges ∨ (d, c) ∈ H.edges := by
    intro c d hcd
    obtain ⟨e, he, heq⟩ := List.mem_map.mp hcd
    rcases enumOrient_cases H.nodes e.1 e.2 with hc | hc
    · rw [hc, Prod.mk.eta] at heq
      exact Or.inl (heq ▸ he)
    · rw [hc, Prod.mk.injEq] at heq
      obtain ⟨rfl, rfl⟩ := heq
      exact Or.inr (Prod.mk.eta ▸ he)
  constructor
  · rintro (h | h)
    · exact key a b h
    · exact (key b a h).symm
  · rintro (h | h)
    · have hm : enumOrient H.nodes a b ∈ edgesView H :=
        List.mem_map.mpr ⟨(a, b), h, rfl⟩
      rcases enumOrient_cases H.nodes a b with hc | hc
      · exact Or.inl (hc ▸ hm)
      · exact Or.inr (hc ▸ hm)
    · have hm : enumOrient H.nodes b a ∈ edgesView H :=
        List.mem_map.mpr ⟨(b, a), h, rfl⟩
      rcases enumOrient_cases H.nodes b a with hc | hc
      · exact Or.inr (hc ▸ hm)
      · exact Or.inl (hc ▸ hm)

theorem ReachesL_mono (E F : List (ℕ × ℕ)) (u v : ℕ)
    (himp : ∀ a b, adjE E a b → adjE F a b) (h : ReachesL E u v) : ReachesL F u v :=
  Relation.ReflTransGen.mono himp h

theorem ReachesL_edgesView (H : NXGraph) (u v : ℕ) (h : ReachesL H.edges u v) :
    ReachesL (edgesView H) u v :=
  ReachesL_mono H.edges (edgesView H) u v
    (fun a b hab => (adjE_edgesView H a b).mpr hab) h

/-- Any two kept nodes of the largest-component restriction are joined by
kept edges. -/
theorem restrict_largest_connected (G : NXGraph) (u v : ℕ)
    (hu : u ∈ (restrictGraph G (largestComponent G.nodes G.edges)).nodes)
    (hv : v ∈ (restrictGraph G (largestComponent G.nodes G.edges)).nodes) :
    ReachesL (restrictGraph G (largestComponent G.nodes G.edges)).edges u v := by
  have hu2 : u ∈ largestComponent G.nodes G.edges := by
    have := (List.mem_filter.mp hu).2
    simpa using this
  have hv2 : v ∈ largestComponent G.nodes G.edges := by
    have := (List.mem_filter.mp hv).2
    simpa using this
  rcases largestComponent_spec G.edges G.nodes with h0 | ⟨r, hr⟩
  · rw [h0] at hu2
    exact absurd hu2 (Finset.not_mem_empty u)
  · have hru : ReachesL G.edges r u := (mem_compOf _ _ _).mp (hr ▸ hu2)
    have hrv : ReachesL G.edges r v := (mem_compOf _ _ _).mp (hr ▸ hv2)
    have huv : ReachesL G.edges u v :=
      Relation.ReflTransGen.trans (ReachesL_symm _ _ _ hru) hrv
    have hclosed : ∀ a b, a ∈ largestComponent G.nodes G.edges →
        adjE G.edges a b → b ∈ largestComponent G.nodes G.edges := by
      intro a b ha hadj
      rw [hr] at ha ⊢
      exact (mem_compOf _ _ _).mpr
        (Relation.ReflTransGen.tail ((mem_compOf _ _ _).mp ha) hadj)
    exact (reaches_filter G.edges _ u v hclosed hu2 huv).1

/-- C5: every graph returned by `kronecker_graph` is one connected
component: any two returned nodes are joined by a path of returned edges. -/
theorem kronecker_graph_single_component (p rand : ℕ → ℕ → ℚ) (n : ℕ)
    (g : NlogoGraph) (hg : kronecker_graph p rand n = some g)
    (u v : ℕ) (hu : u ∈ g.nodes) (hv : v ∈ g.nodes) : ReachesL g.edges u v := by
  simp only [kronecker_graph] at hg
  split at hg
  · exact absurd hg (by simp)
  · obtain rfl := (Option.some.injEq _ _).mp hg
    exact ReachesL_edgesView _ u v (restrict_largest_connected _ u v hu hv)

/-! ### Bidirection -/

theorem mem_foldl_addBoth_edges (l : List (ℕ × ℕ)) (D : NXGraph) (u v : ℕ) :
    (u, v) ∈ (l.foldl (fun D e => addEdgeD (addEdgeD D e.1 e.2) e.2 e.1) D).edges ↔
      (u, v) ∈ D.edges ∨ adjE l u v := by
  induction l generalizing D with
  | nil => simp [adjE]
  | cons a l ih =>
    simp only [List.foldl_cons]
    rw [ih, mem_addEdgeD_edges, mem_addEdgeD_edges]
    unfold adjE
    simp only [List.mem_cons, Prod.ext_iff]
    tauto

theorem mem_foldl_addBoth_nodes (l : List (ℕ × ℕ)) (D : NXGraph) (w : ℕ) :
    w ∈ (l.foldl (fun D e => addEdgeD (addEdgeD D e.1 e.2) e.2 e.1) D).nodes ↔
      w ∈ D.nodes ∨ ∃ e ∈ l, w = e.1 ∨ w = e.2 := by
  induction l generalizing D with
  | nil => simp
  | cons a l ih =>
    simp only [List.foldl_cons]
    rw [ih, mem_addEdgeD_nodes, mem_addEdgeD_nodes]
    simp only [List.mem_cons]
    constructor
    · rintro (((h | h | h) | h | h) | ⟨e, he, hm⟩)
      · exact Or.inl h
      · exact Or.inr ⟨a, Or.inl rfl, Or.inl h⟩
      · exact Or.inr ⟨a, Or.inl rfl, Or.inr h⟩
      · exact Or.inr ⟨a, Or.inl rfl, Or.inr h⟩
      · exact Or.inr ⟨a, Or.inl rfl, Or.inl h⟩
      · exact Or.inr ⟨e, Or.inr he, hm⟩
    · rintro (h | ⟨e, he | he, hm⟩)
      · exact Or.inl (Or.inl (Or.inl h))
      · subst he
        rcases hm with h | h
        · exact Or.inl (Or.inl (Or.inr (Or.inl h)))
        · exact Or.inl (Or.inl (Or.inr (Or.inr h)))
      · exact Or.inr ⟨e, he, hm⟩

theorem mem_bidirected_edges (G : NXGraph) (u v : ℕ) :
    (u, v) ∈ (bidirected_graph G).edges ↔ adjE G.edges u v := by
  unfold bidirected_graph
  rw [mem_foldl_addBoth_edges]
  simp only [NXGraph.empty, List.not_mem_nil, false_or]
  constructor
  · intro h
    exact (adjE_edgesView G u v).mp h
  · intro h
    exact (adjE_edgesView G u v).mpr h

theorem mem_bidirected_nodes (G : NXGraph) (w : ℕ) :
    w ∈ (bidirected_graph G).nodes ↔ ∃ e ∈ G.edges, w = e.1 ∨ w = e.2 := by
  unfold bidirected_graph
  rw [mem_foldl_addBoth_nodes]
  simp only [NXGraph.empty, List.not_mem_nil, false_or]
  constructor
  · rintro ⟨e, he, hm⟩
    obtain ⟨e0, he0, heq⟩ := List.mem_map.mp he
    rcases enumOrient_cases G.nodes e0.1 e0.2 with hc | hc <;> rw [hc] at heq <;> subst heq
    · exact ⟨e0, he0, hm⟩
    · exact ⟨e0, he0, hm.symm⟩
  · rintro ⟨e, he, hm⟩
    refine ⟨enumOrient G.nodes e.1 e.2, List.mem_map.mpr ⟨e, he, rfl⟩, ?_⟩
    rcases enumOrient_cases G.nodes e.1 e.2 with hc | hc <;> rw [hc]
    · exact hm
    · exact hm.symm

/-- C4: `bidirected_graph` contains `(u, v)` iff it contains `(v, u)`, and
contains `(u, v)` iff the unordered pair `{u, v}` is an edge of the input
graph; in particular it invents no connectivity absent from the input. -/
theorem bidirected_graph_round_trip (G : NXGraph) (u v : ℕ) :
    ((u, v) ∈ (bidirected_graph G).edges ↔ (v, u) ∈ (bidirected_graph G).edges) ∧
    ((u, v) ∈ (bidirected_graph G).edges ↔
      ((u, v) ∈ G.edges ∨ (v, u) ∈ G.edges)) := by
  refine ⟨?_, mem_bidirected_edges G u v⟩
  rw [mem_bidirected_edges, mem_bidirected_edges]
  exact ⟨Or.symm, Or.symm⟩

/-- C10: the record returned for a bidirected graph lists exactly the
endpoints of the undirected edges, so every isolated node of the
underlying graph is omitted; concretely, `MAG_graph_bidirected` on a
3-node draw with no successful edges returns fewer than 3 nodes. -/
theorem bidirected_nodes_only_endpoints :
    (∀ (G : NXGraph) (w : ℕ),
      w ∈ (nlogo_safe_nodes_edgesD (bidirected_graph G)).nodes ↔
        ∃ e ∈ G.edges, w = e.1 ∨ w = e.2) ∧
    (MAG_graph_bidirected (fun _ _ => 1) (fun _ _ => 2) 3).nodes.length < 3 := by
  constructor
  · intro G w
    exact mem_bidirected_nodes G w
  · decide

/-! ### The Bernoulli sampling loops -/

theorem mem_pairsSquare (n i j : ℕ) : (i, j) ∈ pairsSquare n ↔ i < n ∧ j < n := by
  simp [pairsSquare, List.mem_flatMap, List.mem_map, List.mem_range, Prod.ext_iff]

theorem adjE_foldl_condAdd (step : NXGraph → ℕ × ℕ → NXGraph) (c : ℕ × ℕ → Prop)
    (hpos : ∀ G ij, c ij → step G ij = addEdgeU G ij.1 ij.2)
    (hneg : ∀ G ij, ¬c ij → step G ij = G)
    (l : List (ℕ × ℕ)) (G : NXGraph) (u v : ℕ) :
    adjE (l.foldl step G).edges u v ↔
      adjE G.edges u v ∨
        ∃ ij, ij ∈ l ∧ c ij ∧ ((u = ij.1 ∧ v = ij.2) ∨ (u = ij.2 ∧ v = ij.1)) := by
  induction l generalizing G with
  | nil => simp
  | cons a l ih =>
    simp only [List.foldl_cons]
    rw [ih]
    by_cases hc : c a
    · rw [hpos G a hc, adjE_addEdgeU]
      constructor
      · rintro ((h | h | h) | ⟨ij, hij, hcij, hm⟩)
        · exact Or.inl h
        · exact Or.inr ⟨a, List.mem_cons_self a l, hc, Or.inl h⟩
        · exact Or.inr ⟨a, List.mem_cons_self a l, hc, Or.inr h⟩
        · exact Or.inr ⟨ij, List.mem_cons_of_mem a hij, hcij, hm⟩
      · rintro (h | ⟨ij, hij, hcij, hm⟩)
        · exact Or.inl (Or.inl h)
        · rcases List.mem_cons.mp hij with rfl | hij
          · rcases hm with hm | hm
            · exact Or.inl (Or.inr (Or.inl hm))
            · exact Or.inl (Or.inr (Or.inr hm))
          · exact Or.inr ⟨ij, hij, hcij, hm⟩
    · rw [hneg G a hc]
      constructor
      · rintro (h | ⟨ij, hij, hcij, hm⟩)
        · exact Or.inl h
        · exact Or.inr ⟨ij, List.mem_cons_of_mem a hij, hcij, hm⟩
      · rintro (h | ⟨ij, hij, hcij, hm⟩)
        · exact Or.inl h
        · rcases List.mem_cons.mp hij with rfl | hij
          · exact absurd hcij hc
          · exact Or.inr ⟨ij, hij, hcij, hm⟩

theorem adjE_MAG_sample (p_edge rand : ℕ → ℕ → ℚ) (n u v : ℕ) :
    adjE (MAG_sample p_edge rand n).edges u v ↔
      ∃ ij, ij ∈ pairsSquare n ∧ rand ij.1 ij.2 ≤ p_edge ij.1 ij.2 ∧
        ((u = ij.1 ∧ v = ij.2) ∨ (u = ij.2 ∧ v = ij.1)) := by
  unfold MAG_sample
  rw [adjE_foldl_condAdd _ (fun ij => rand ij.1 ij.2 ≤ p_edge ij.1 ij.2)
    (fun G ij hc => if_pos hc) (fun G ij hc => if_neg hc)]
  simp [adjE]

theorem adjE_kronecker_sample (p rand : ℕ → ℕ → ℚ) (n u v : ℕ) :
    adjE (kronecker_sample p rand n).edges u v ↔
      ∃ ij, ij ∈ pairsSquare n ∧ (ij.1 ≠ ij.2 ∧ rand ij.1 ij.2 < p ij.1 ij.2) ∧
        ((u = ij.1 ∧ v = ij.2) ∨ (u = ij.2 ∧ v = ij.1)) := by
  unfold kronecker_sample
  rw [adjE_foldl_condAdd _ (fun ij => ij.1 ≠ ij.2 ∧ rand ij.1 ij.2 < p ij.1 ij.2)
    (fun G ij hc => by rw [if_neg hc.1, if_pos hc.2])
    (fun G ij hc => by
      by_cases h1 : ij.1 = ij.2
      · rw [if_pos h1]
      · rw [if_neg h1, if_neg (fun h2 => hc ⟨h1, h2⟩)])]
  simp [adjE]

/-- Every stored edge of a kronecker sample joins two distinct nodes. -/
theorem kronecker_sample_no_loop (p rand : ℕ → ℕ → ℚ) (n : ℕ) :
    ∀ e ∈ (kronecker_sample p rand n).edges, e.1 ≠ e.2 := by
  intro e he
  intro hloop
  have : adjE (kronecker_sample p rand n).edges e.1 e.2 := Or.inl (by rwa [Prod.mk.eta])
  obtain ⟨ij, _, ⟨hne, _⟩, hm⟩ := (adjE_kronecker_sample p rand n e.1 e.2).mp this
  rcases hm with ⟨h1, h2⟩ | ⟨h1, h2⟩
  · exact hne (by rw [← h1, ← h2, hloop])
  · exact hne (by rw [← h1, ← h2, hloop])

theorem edgesView_no_loop (H : NXGraph) (h : ∀ e ∈ H.edges, e.1 ≠ e.2) (i : ℕ) :
    (i, i) ∉ edgesView H := by
  intro hm
  obtain ⟨e, he, heq⟩ := List.mem_map.mp hm
  rcases enumOrient_cases H.nodes e.1 e.2 with hc | hc <;> rw [hc, Prod.mk.injEq] at heq
  · exact h e he (heq.1.trans heq.2.symm)
  · exact h e he (heq.2.trans heq.1.symm)

/-- C1 counterexample: the MAG sampling loop does not skip identity pairs,
so with a positive diagonal entry (here probability 1 at `(0, 0)`) and a
draw below it, both MAG entry points return the self-loop `(0, 0)`. -/
theorem MAG_self_loop_counterexample :
    (0, 0) ∈ (MAG_graph (fun _ _ => 1) (fun _ _ => 0) 1).edges ∧
    (0, 0) ∈ (MAG_graph_bidirected (fun _ _ => 1) (fun _ _ => 0) 1).edges := by
  decide

/-- C1 amended: only the kronecker entry points skip identity pairs, so for
every probability matrix and draw sequence no edge `(i, i)` appears in a
graph returned by `kronecker_graph` or `kronecker_graph_bidirected`; the
MAG entry points sample the diagonal and may return self-loops. -/
theorem kronecker_graphs_no_self_loops (p rand : ℕ → ℕ → ℚ) (n i : ℕ) :
    (∀ g, kronecker_graph p rand n = some g → (i, i) ∉ g.edges) ∧
    (∀ g, kronecker_graph_bidirected p rand n = some g → (i, i) ∉ g.edges) := by
  have hfil : ∀ e ∈ (restrictGraph (kronecker_sample p rand n)
      (largestComponent (kronecker_sample p rand n).nodes
        (kronecker_sample p rand n).edges)).edges, e.1 ≠ e.2 :=
    fun e he => kronecker_sample_no_loop p rand n e (List.mem_filter.mp he).1
  constructor
  · intro g hg
    simp only [kronecker_graph] at hg
    split at hg
    · exact absurd hg (by simp)
    · obtain rfl := (Option.some.injEq _ _).mp hg
      exact edgesView_no_loop _ hfil i
  · intro g hg
    simp only [kronecker_graph_bidirected] at hg
    split at hg
    · exact absurd hg (by simp)
    · obtain rfl := (Option.some.injEq _ _).mp hg
      intro hm
      rcases (mem_bidirected_edges _ i i).mp hm with h | h
      · exact hfil (i, i) h rfl
      · exact hfil (i, i) h rfl

theorem kronecker_graphs_no_self_loops_witness :
    (0, 0) ∉ (⟨[0, 1], [(0, 1)]⟩ : NlogoGraph).edges ∧
    (0, 0) ∉ (⟨[0, 1], [(0, 1), (1, 0)]⟩ : NlogoGraph).edges :=
  ⟨(kronecker_graphs_no_self_loops (fun _ _ => 1) (fun _ _ => 0) 2 0).1
      ⟨[0, 1], [(0, 1)]⟩ (by decide),
   (kronecker_graphs_no_self_loops (fun _ _ => 1) (fun _ _ => 0) 2 0).2
      ⟨[0, 1], [(0, 1), (1, 0)]⟩ (by decide)⟩

/-- C7 counterexample: with a symmetric probability matrix and a draw
sequence whose draw at `(0, 1)` fails (value 1) but whose separate draw at
the reversed pair `(1, 0)` succeeds (value 0), the MAG loop still creates
the edge between 0 and 1 — edge existence was decided by a second,
separate draw for the reversed pair, not by a single draw. -/
theorem MAG_second_draw_counterexample :
    ((0, 1) ∈ (MAG_sample (fun _ _ => 0)
        (fun i j => if (i, j) = (1, 0) then 0 else 1) 2).edges ∨
     (1, 0) ∈ (MAG_sample (fun _ _ => 0)
        (fun i j => if (i, j) = (1, 0) then 0 else 1) 2).edges) ∧
    ¬((fun (i j : ℕ) => if (i, j) = ((1 : ℕ), (0 : ℕ)) then (0 : ℚ) else 1) 0 1
        ≤ (fun _ _ => (0 : ℚ)) 0 1) := by
  decide

/-- C7 amended: the MAG loop draws once per ordered pair, both orderings of
each unordered pair included, so for `i ≠ j` (both below `n`) the edge
between `i` and `j` exists iff the draw at `(i, j)` or the separate draw at
`(j, i)` succeeds. -/
theorem MAG_sample_pair_two_draws (p_edge rand : ℕ → ℕ → ℚ) (n i j : ℕ)
    (hi : i < n) (hj : j < n) (hij : i ≠ j) :
    (((i, j) ∈ (MAG_sample p_edge rand n).edges ∨
      (j, i) ∈ (MAG_sample p_edge rand n).edges) ↔
     (rand i j ≤ p_edge i j ∨ rand j i ≤ p_edge j i)) := by
  have hchar := adjE_MAG_sample p_edge rand n i j
  unfold adjE at hchar
  rw [hchar]
  constructor
  · rintro ⟨ij, _, hcond, ⟨h1, h2⟩ | ⟨h1, h2⟩⟩
    · subst h1; subst h2; exact Or.inl hcond
    · subst h1; subst h2; exact Or.inr hcond
  · rintro (h | h)
    · exact ⟨(i, j), (mem_pairsSquare n i j).mpr ⟨hi, hj⟩, h, Or.inl ⟨rfl, rfl⟩⟩
    · exact ⟨(j, i), (mem_pairsSquare n j i).mpr ⟨hj, hi⟩, h, Or.inr ⟨rfl, rfl⟩⟩

theorem MAG_sample_pair_two_draws_witness :
    (((0, 1) ∈ (MAG_sample (fun _ _ => 0)
        (fun i j => if (i, j) = (1, 0) then 0 else 1) 2).edges ∨
      (1, 0) ∈ (MAG_sample (fun _ _ => 0)
        (fun i j => if (i, j) = (1, 0) then 0 else 1) 2).edges) ↔
     ((fun (i j : ℕ) => if (i, j) = ((1 : ℕ), (0 : ℕ)) then (0 : ℚ) else 1) 0 1
        ≤ (0 : ℚ) ∨
      (fun (i j : ℕ) => if (i, j) = ((1 : ℕ), (0 : ℕ)) then (0 : ℚ) else 1) 1 0
        ≤ (0 : ℚ))) :=
  MAG_sample_pair_two_draws (fun _ _ => 0)
    (fun i j => if (i, j) = (1, 0) then 0 else 1) 2 0 1
    (by decide) (by decide) (by decide)

theorem kronecker_graph_single_component_witness :
    kronecker_graph (fun _ _ => 1) (fun _ _ => 0) 2 = some ⟨[0, 1], [(0, 1)]⟩ ∧
    ReachesL [(0, 1)] 0 1 :=
  ⟨by decide,
   kronecker_graph_single_component (fun _ _ => 1) (fun _ _ => 0) 2
     ⟨[0, 1], [(0, 1)]⟩ (by decide) 0 1 (by decide) (by decide)⟩

/-! ### Opinion metrics -/

/-- C8: on the 3-node path graph 0–1–2 with attribute values 0, 5, 10 the
homophily measure evaluates to exactly 5. -/
theorem graph_homophily_path_scenario :
    graph_homophily (nlogo_graph_to_nx [0, 1, 2] [(0, 1), (1, 2)])
      (fun v => if v = 0 then 0 else if v = 1 then 5 else 10) = 5 := by
  have hG : nlogo_graph_to_nx [0, 1, 2] [(0, 1), (1, 2)] =
      ⟨[0, 1, 2], [(0, 1), (1, 2)]⟩ := by decide
  rw [hG]
  simp only [graph_homophily, adjVal, List.map_cons, List.map_nil, List.sum_cons,
    List.sum_nil, List.length_cons, List.length_nil, List.mem_cons,
    List.not_mem_nil, Prod.mk.injEq]
  norm_num

/-- C9: multiplying every attribute value and `max_attr_value` by the same
positive constant leaves both `graph_polarization` and `graph_disagreement`
unchanged, for every graph. -/
theorem polarization_disagreement_scale_invariant (G : NXGraph) (attrs : ℕ → ℚ)
    (maxAttrValue c : ℚ) (_hM : 0 < maxAttrValue) (hc : 0 < c) :
    graph_polarization G (fun v => c * attrs v) (c * maxAttrValue) =
      graph_polarization G attrs maxAttrValue ∧
    graph_disagreement G (fun v => c * attrs v) (c * maxAttrValue) =
      graph_disagreement G attrs maxAttrValue := by
  have key : ∀ x : ℚ, c * x / (c * maxAttrValue) = x / maxAttrValue :=
    fun x => mul_div_mul_left x maxAttrValue (ne_of_gt hc)
  constructor
  · unfold graph_polarization
    simp only [key]
  · unfold graph_disagreement
    simp only [key]

theorem polarization_disagreement_scale_invariant_witness :
    graph_polarization (nlogo_graph_to_nx [0, 1] [(0, 1)])
        (fun v => 3 * (if v = 0 then 1 else 2)) (3 * 2) =
      graph_polarization (nlogo_graph_to_nx [0, 1] [(0, 1)])
        (fun v => if v = 0 then 1 else 2) 2 ∧
    graph_disagreement (nlogo_graph_to_nx [0, 1] [(0, 1)])
        (fun v => 3 * (if v = 0 then 1 else 2)) (3 * 2) =
      graph_disagreement (nlogo_graph_to_nx [0, 1] [(0, 1)])
        (fun v => if v = 0 then 1 else 2) 2 :=
  polarization_disagreement_scale_invariant (nlogo_graph_to_nx [0, 1] [(0, 1)])
    (fun v => if v = 0 then 1 else 2) 2 3 (by decide) (by decide)

/-! ### The influence path finder -/

theorem traverseOption_mem (l : List α) (f : α → Option β) (r : List β)
    (h : traverseOption l f = some r) : ∀ b ∈ r, ∃ a ∈ l, f a = some b := by
  induction l generalizing r with
  | nil =>
    obtain rfl := (Option.some.injEq _ _).mp h
    intro b hb
    exact absurd hb (List.not_mem_nil b)
  | cons a l ih =>
    unfold traverseOption at h
    cases hfa : f a with
    | none => rw [hfa] at h; exact absurd h (by simp)
    | some b0 =>
      rw [hfa] at h
      cases hrec : traverseOption l f with
      | none => rw [hrec] at h; exact absurd h (by simp)
      | some r0 =>
        rw [hrec] at h
        obtain rfl := (Option.some.injEq _ _).mp h
        intro b hb
        rcases List.mem_cons.mp hb with rfl | hb
        · exact ⟨a, List.mem_cons_self a l, hfa⟩
        · obtain ⟨a1, ha1, hfa1⟩ := ih r0 hrec b hb
          exact ⟨a1, List.mem_cons_of_mem a ha1, hfa1⟩

theorem traverseOption_none (l : List α) (f : α → Option β) (a : α)
    (ha : a ∈ l) (hf : f a = none) : traverseOption l f = none := by
  induction l with
  | nil => exact absurd ha (List.not_mem_nil a)
  | cons x l ih =>
    unfold traverseOption
    rcases List.mem_cons.mp ha with rfl | ha
    · rw [hf]
    · cases hfx : f x with
      | none => rfl
      | some b => rw [ih ha]; rfl

theorem passesThreshold_iff (threshold : ℚ) (dp : List ℚ) :
    passesThreshold threshold dp = true ↔ ∀ d ∈ dp, d ≤ threshold := by
  unfold passesThreshold
  rw [beq_iff_eq, List.countP_eq_zero]
  constructor
  · intro h d hd
    have := h (d - threshold) (List.mem_map_of_mem _ hd)
    simp only [decide_eq_true_eq] at this
    linarith
  · intro h x hx
    obtain ⟨d, hd, rfl⟩ := List.mem_map.mp hx
    simp only [decide_eq_true_eq, not_lt]
    have := h d hd
    linarith

/-- C2: whenever `influencer_paths_within_distance` returns normally, every
retained source's distance sequence is pointwise ≤ the threshold, and every
source whose computed shortest path has a distance value above the
threshold is absent from the returned mapping. -/
theorem influencer_threshold_filtering_sound (citizens : List ℕ)
    (friend_links : List (ℕ × ℕ)) (subscribers : List ℕ) (target : ℕ)
    (distOf : ℕ → ℚ) (threshold : ℚ) (m : List (ℕ × List ℚ))
    (hm : influencer_paths_within_distance citizens friend_links subscribers
        target distOf threshold = some m) :
    (∀ s dp, (s, dp) ∈ m → ∀ d ∈ dp, d ≤ threshold) ∧
    (∀ s ∈ subscribers, ∀ path,
      dijkstra_path (nlogo_graph_to_nx citizens friend_links)
          (weightLookup (assignWeights (nlogo_graph_to_nx citizens friend_links)
            distOf)) s target = some path →
      (∃ d ∈ distSeq distOf path, threshold < d) →
      ∀ dp, (s, dp) ∉ m) := by
  simp only [influencer_paths_within_distance] at hm
  cases htrav : traverseOption subscribers (fun s =>
      (dijkstra_path (nlogo_graph_to_nx citizens friend_links)
        (weightLookup (assignWeights (nlogo_graph_to_nx citizens friend_links)
          distOf)) s target).map (fun p => (s, p))) with
  | none => rw [htrav] at hm; exact absurd hm (by simp)
  | some paths =>
    rw [htrav] at hm
    obtain rfl := (Option.some.injEq _ _).mp hm
    constructor
    · intro s dp hmem d hd
      exact (passesThreshold_iff threshold dp).mp (List.mem_filter.mp hmem).2 d hd
    · intro s hs path hdij hviol dp hmem
      have hmem2 := List.mem_filter.mp hmem
      obtain ⟨sp, hsp, heq⟩ := List.mem_map.mp hmem2.1
      obtain ⟨a, _, hfa⟩ := traverseOption_mem _ _ _ htrav sp hsp
      cases hd0 : dijkstra_path (nlogo_graph_to_nx citizens friend_links)
          (weightLookup (assignWeights (nlogo_graph_to_nx citizens friend_links)
            distOf)) a target with
      | none => rw [hd0] at hfa; exact absurd hfa (by simp)
      | some p0 =>
        rw [hd0] at hfa
        obtain rfl := (Option.some.injEq _ _).mp hfa
        rw [Prod.mk.injEq] at heq
        obtain ⟨rfl, rfl⟩ := heq
        have hpp : p0 = path := by
          have := hd0.symm.trans hdij
          exact (Option.some.injEq _ _).mp this
        subst hpp
        obtain ⟨d, hd2, hlt⟩ := hviol
        exact absurd ((passesThreshold_iff _ _).mp hmem2.2 d hd2) (not_le.mpr hlt)

theorem influencer_threshold_filtering_sound_witness :
    (∀ s dp, (s, dp) ∈ ([(1, [0])] : List (ℕ × List ℚ)) → ∀ d ∈ dp, d ≤ 1) ∧
    (∀ s ∈ [1], ∀ path,
      dijkstra_path (nlogo_graph_to_nx [0, 1] [(0, 1)])
          (weightLookup (assignWeights (nlogo_graph_to_nx [0, 1] [(0, 1)])
            (fun _ => 0))) s 0 = some path →
      (∃ d ∈ distSeq (fun _ => 0) path, 1 < d) →
      ∀ dp, (s, dp) ∉ ([(1, [0])] : List (ℕ × List ℚ))) :=
  influencer_threshold_filtering_sound [0, 1] [(0, 1)] [1] 0 (fun _ => 0) 1
    [(1, [0])] (by
      have h1 : traverseOption [1] (fun s =>
          (dijkstra_path (nlogo_graph_to_nx [0, 1] [(0, 1)])
            (weightLookup (assignWeights (nlogo_graph_to_nx [0, 1] [(0, 1)])
              (fun _ => (0 : ℚ)))) s 0).map (fun p => (s, p))) =
          some [(1, [1, 0])] := by rfl
      simp only [influencer_paths_within_distance, h1]
      norm_num [distSeq, passesThreshold, List.filter])

/-- C3 counterexample: subscriber 1 has a path to target 0, subscriber 2
does not; the whole batch call fails (the no-path exception propagates out
of the dict comprehension), so no result is produced for subscriber 1
either — the failure is not isolated to subscriber 2. -/
theorem influencer_batch_abort_counterexample :
    influencer_paths_within_distance [0, 1, 2] [(0, 1)] [1, 2] 0
      (fun _ => 0) 1 = none ∧
    dijkstra_path (nlogo_graph_to_nx [0, 1, 2] [(0, 1)])
      (weightLookup (assignWeights (nlogo_graph_to_nx [0, 1, 2] [(0, 1)])
        (fun _ => 0))) 1 0 = some [1, 0] := by
  constructor
  · rfl
  · rfl

/-- C3 amended: if any source of the batch has no path to the target, the
no-path failure aborts the whole call — `influencer_paths_within_distance`
returns no mapping at all, so no sibling source receives a result. -/
theorem influencer_unreachable_aborts_batch (citizens : List ℕ)
    (friend_links : List (ℕ × ℕ)) (subscribers : List ℕ) (target : ℕ)
    (distOf : ℕ → ℚ) (threshold : ℚ) (s : ℕ) (hs : s ∈ subscribers)
    (hnone : dijkstra_path (nlogo_graph_to_nx citizens friend_links)
        (weightLookup (assignWeights (nlogo_graph_to_nx citizens friend_links)
          distOf)) s target = none) :
    influencer_paths_within_distance citizens friend_links subscribers target
      distOf threshold = none := by
  have habort : traverseOption subscribers (fun a =>
      (dijkstra_path (nlogo_graph_to_nx citizens friend_links)
        (weightLookup (assignWeights (nlogo_graph_to_nx citizens friend_links)
          distOf)) a target).map (fun p => (a, p))) = none :=
    traverseOption_none _ _ s hs (by rw [hnone]; rfl)
  simp only [influencer_paths_within_distance, habort]

theorem influencer_unreachable_aborts_batch_witness :
    influencer_paths_within_distance [0, 1, 2] [(0, 1)] [2] 0
      (fun _ => 0) 1 = none :=
  influencer_unreachable_aborts_batch [0, 1, 2] [(0, 1)] [2] 0 (fun _ => 0) 1 2
    (by decide) (by rfl)

/-! ### Edge weights -/

theorem foldl_addNode_edges (l : List ℕ) (D : NXGraph) :
    (l.foldl (fun G c => addNode G c) D).edges = D.edges := by
  induction l generalizing D with
  | nil => rfl
  | cons a l ih =>
    simp only [List.foldl_cons]
    rw [ih, addNode_edges]

theorem addEdgeU_wf (G : NXGraph) (a b : ℕ)
    (hG : ∀ e ∈ G.edges, e.1 ∈ G.nodes ∧ e.2 ∈ G.nodes) :
    ∀ e ∈ (addEdgeU G a b).edges,
      e.1 ∈ (addEdgeU G a b).nodes ∧ e.2 ∈ (addEdgeU G a b).nodes := by
  have hsub : ∀ x, x ∈ G.nodes → x ∈ (addNode (addNode G a) b).nodes := fun x hx =>
    (mem_addNode_nodes _ b x).mpr (Or.inl ((mem_addNode_nodes G a x).mpr (Or.inl hx)))
  have ha : a ∈ (addNode (addNode G a) b).nodes :=
    (mem_addNode_nodes _ b a).mpr (Or.inl ((mem_addNode_nodes G a a).mpr (Or.inr rfl)))
  have hb : b ∈ (addNode (addNode G a) b).nodes :=
    (mem_addNode_nodes _ b b).mpr (Or.inr rfl)
  intro e he
  rw [addEdgeU_nodes]
  unfold addEdgeU at he
  split at he
  · rw [addNode_edges, addNode_edges] at he
    exact ⟨hsub _ (hG e he).1, hsub _ (hG e he).2⟩
  · rcases List.mem_append.mp he with he | he
    · exact ⟨hsub _ (hG e he).1, hsub _ (hG e he).2⟩
    · rcases List.mem_singleton.mp he with rfl
      exact ⟨ha, hb⟩

theorem foldl_addEdgeU_wf (l : List (ℕ × ℕ)) (G : NXGraph)
    (hG : ∀ e ∈ G.edges, e.1 ∈ G.nodes ∧ e.2 ∈ G.nodes) :
    ∀ e ∈ (l.foldl (fun G x => addEdgeU G x.1 x.2) G).edges,
      e.1 ∈ (l.foldl (fun G x => addEdgeU G x.1 x.2) G).nodes ∧
      e.2 ∈ (l.foldl (fun G x => addEdgeU G x.1 x.2) G).nodes := by
  induction l generalizing G with
  | nil => exact hG
  | cons a l ih =>
    simp only [List.foldl_cons]
    exact ih _ (addEdgeU_wf G a.1 a.2 hG)

theorem nlogo_graph_to_nx_wf (citizens : List ℕ) (friend_links : List (ℕ × ℕ)) :
    ∀ e ∈ (nlogo_graph_to_nx citizens friend_links).edges,
      e.1 ∈ (nlogo_graph_to_nx citizens friend_links).nodes ∧
      e.2 ∈ (nlogo_graph_to_nx citizens friend_links).nodes := by
  unfold nlogo_graph_to_nx
  apply foldl_addEdgeU_wf
  intro e he
  rw [foldl_addNode_edges] at he
  exact absurd he (List.not_mem_nil e)

theorem enumOrient_idem (nodes : List ℕ) (u v : ℕ) :
    enumOrient nodes (enumOrient nodes u v).1 (enumOrient nodes u v).2 =
      enumOrient nodes u v := by
  unfold enumOrient
  by_cases h : nodes.indexOf u ≤ nodes.indexOf v
  · simp only [if_pos h]
  · simp only [if_neg h]
    have h2 : nodes.indexOf v ≤ nodes.indexOf u := le_of_not_le h
    rw [if_pos h2]

theorem enumOrient_swap (nodes : List ℕ) (u v : ℕ) (hu : u ∈ nodes) (hv : v ∈ nodes) :
    enumOrient nodes v u = enumOrient nodes u v := by
  rcases eq_or_ne u v with rfl | hne
  · rfl
  · have hid : nodes.indexOf u ≠ nodes.indexOf v :=
      fun h => hne ((List.indexOf_inj hu hv).mp h)
    unfold enumOrient
    rcases lt_or_gt_of_ne hid with h | h
    · rw [if_neg (by omega), if_pos (by omega)]
    · rw [if_pos (by omega), if_neg (by omega)]

theorem weightLookup_cons (x : (ℕ × ℕ) × ℚ) (W : List ((ℕ × ℕ) × ℚ)) (u v : ℕ) :
    weightLookup (x :: W) u v =
      if (x.1 == (u, v) || x.1 == (v, u)) = true then x.2 else weightLookup W u v := by
  unfold weightLookup
  by_cases h : (x.1 == (u, v) || x.1 == (v, u)) = true
  · have hf : List.find? (fun y => y.1 == (u, v) || y.1 == (v, u)) (x :: W) = some x :=
      List.find?_cons_of_pos W h
    rw [hf, if_pos h]
  · have hf : List.find? (fun y => y.1 == (u, v) || y.1 == (v, u)) (x :: W) =
        List.find? (fun y => y.1 == (u, v) || y.1 == (v, u)) W :=
      List.find?_cons_of_neg W h
    rw [hf, if_neg h]

theorem weightLookup_aux (nodes : List ℕ) (distOf : ℕ → ℚ) (l : List (ℕ × ℕ))
    (u v : ℕ) (hwf : ∀ e ∈ l, e.1 ∈ nodes ∧ e.2 ∈ nodes)
    (hu : u ∈ nodes) (hv : v ∈ nodes) (hE : (u, v) ∈ l ∨ (v, u) ∈ l) :
    weightLookup ((l.map (fun e => enumOrient nodes e.1 e.2)).map
      (fun e => (e, distOf e.1))) u v = distOf (enumOrient nodes u v).1 := by
  induction l with
  | nil => rcases hE with h | h <;> exact absurd h (List.not_mem_nil _)
  | cons a l ih =>
    simp only [List.map_cons]
    rw [weightLookup_cons]
    by_cases hmatch : ((enumOrient nodes a.1 a.2, distOf (enumOrient nodes a.1 a.2).1).1
        == (u, v) || (enumOrient nodes a.1 a.2, distOf (enumOrient nodes a.1 a.2).1).1
        == (v, u)) = true
    · rw [if_pos hmatch]
      show distOf (enumOrient nodes a.1 a.2).1 = distOf (enumOrient nodes u v).1
      simp only [Bool.or_eq_true, beq_iff_eq] at hmatch
      rcases hmatch with hm | hm
      · have h2 : enumOrient nodes u v = (u, v) := by
          have h3 := enumOrient_idem nodes a.1 a.2
          rw [hm] at h3
          exact h3
        rw [hm, h2]
      · have h2 : enumOrient nodes v u = (v, u) := by
          have h3 := enumOrient_idem nodes a.1 a.2
          rw [hm] at h3
          exact h3
        have hswap : enumOrient nodes u v = enumOrient nodes v u :=
          (enumOrient_swap nodes u v hu hv).symm
        rw [hm, hswap, h2]
    · rw [if_neg hmatch]
      have hE2 : (u, v) ∈ l ∨ (v, u) ∈ l := by
        simp only [Bool.or_eq_true, beq_iff_eq, not_or] at hmatch
        rcases hE with h | h <;> rcases List.mem_cons.mp h with ha | h
        · exfalso
          subst ha
          rcases enumOrient_cases nodes (u, v).1 (u, v).2 with hc | hc
          · exact hmatch.1 hc
          · exact hmatch.2 hc
        · exact Or.inl h
        · exfalso
          subst ha
          rcases enumOrient_cases nodes (v, u).1 (v, u).2 with hc | hc
          · exact hmatch.2 hc
          · exact hmatch.1 hc
        · exact Or.inr h
      exact ih (fun e he => hwf e (List.mem_cons_of_mem a he)) hE2

/-- C6 counterexample: on the single link between agents 0 and 1 (agent 0
inserted first), the one stored weight is computed from agent 0; the hop
from 1 to 0 therefore uses the distance of agent 0, not the distance of
its originating endpoint 1. -/
theorem influencer_hop_weight_counterexample :
    weightLookup (assignWeights (nlogo_graph_to_nx [0, 1] [(0, 1)])
      (fun a => if a = 0 then 0 else 5)) 1 0 =
      (fun a : ℕ => if a = 0 then (0 : ℚ) else 5) 0 ∧
    weightLookup (assignWeights (nlogo_graph_to_nx [0, 1] [(0, 1)])
      (fun a => if a = 0 then 0 else 5)) 1 0 ≠
      (fun a : ℕ => if a = 0 then (0 : ℚ) else 5) 1 := by
  constructor
  · rfl
  · decide

/-- C6 amended: an undirected edge carries one stored weight, the distance
of the endpoint listed first in the edge enumeration (the earlier-inserted
endpoint), and both traversal directions of the link consult that same
weight — the hop weight is not recomputed from the originating endpoint. -/
theorem influencer_hop_weight_shared (citizens : List ℕ)
    (friend_links : List (ℕ × ℕ)) (distOf : ℕ → ℚ) (u v : ℕ)
    (hE : (u, v) ∈ (nlogo_graph_to_nx citizens friend_links).edges ∨
          (v, u) ∈ (nlogo_graph_to_nx citizens friend_links).edges) :
    weightLookup (assignWeights (nlogo_graph_to_nx citizens friend_links) distOf) u v
      = distOf (enumOrient (nlogo_graph_to_nx citizens friend_links).nodes u v).1 ∧
    weightLookup (assignWeights (nlogo_graph_to_nx citizens friend_links) distOf) v u
      = weightLookup (assignWeights (nlogo_graph_to_nx citizens friend_links) distOf)
          u v := by
  have hwf := nlogo_graph_to_nx_wf citizens friend_links
  have huv : u ∈ (nlogo_graph_to_nx citizens friend_links).nodes ∧
      v ∈ (nlogo_graph_to_nx citizens friend_links).nodes := by
    rcases hE with h | h
    · exact hwf (u, v) h
    · exact ⟨(hwf (v, u) h).2, (hwf (v, u) h).1⟩
  have h1 : weightLookup (assignWeights (nlogo_graph_to_nx citizens friend_links)
      distOf) u v = distOf (enumOrient (nlogo_graph_to_nx citizens friend_links).nodes
        u v).1 := by
    unfold assignWeights edgesView
    exact weightLookup_aux _ distOf _ u v hwf huv.1 huv.2 hE
  have h2 : weightLookup (assignWeights (nlogo_graph_to_nx citizens friend_links)
      distOf) v u = distOf (enumOrient (nlogo_graph_to_nx citizens friend_links).nodes
        v u).1 := by
    unfold assignWeights edgesView
    exact weightLookup_aux _ distOf _ v u hwf huv.2 huv.1 (Or.symm hE)
  refine ⟨h1, ?_⟩
  rw [h1, h2, enumOrient_swap _ u v huv.1 huv.2]

theorem influencer_hop_weight_shared_witness :
    (weightLookup (assignWeights (nlogo_graph_to_nx [0, 1] [(0, 1)])
        (fun a => if a = 0 then 0 else 5)) 0 1
      = (fun a : ℕ => if a = 0 then (0 : ℚ) else 5)
          (enumOrient (nlogo_graph_to_nx [0, 1] [(0, 1)]).nodes 0 1).1) ∧
    (weightLookup (assignWeights (nlogo_graph_to_nx [0, 1] [(0, 1)])
        (fun a => if a = 0 then 0 else 5)) 1 0
      = weightLookup (assignWeights (nlogo_graph_to_nx [0, 1] [(0, 1)])
          (fun a => if a = 0 then 0 else 5)) 0 1) :=
  influencer_hop_weight_shared [0, 1] [(0, 1)] (fun a => if a = 0 then 0 else 5)
    0 1 (by decide)
